import Mathlib

/-!
Verification of the wsl-clip core against its design document.

The development shallowly embeds the three core components of the
repository: the per-line text transform and streaming pipeline of
src/text_processor.rs, the classifier of src/classifier.rs, and the
smart-mode dispatch of src/main.rs.  Lines of text are modelled as
List Char, file bytes as List Nat, and every call of write_all on the
sink writer as one emitted chunk.
-/

namespace WslClip

/-! ## Character helpers -/

/-- Model of the Rust predicate char::is_control: Unicode category Cc,
that is U+0000 to U+001F together with U+007F to U+009F. -/
def isControlChar (c : Char) : Bool :=
  decide (c.toNat < 0x20) || (decide (0x7F ≤ c.toNat) && decide (c.toNat ≤ 0x9F))

/-- Final bytes accepted by the character class written as m|K in the
source regex.  Inside a character class the pipe is a literal, so the
class contains the three characters m, pipe and K. -/
def ansiFinal (c : Char) : Bool :=
  c == 'm' || c == '|' || c == 'K'

/-! ## The ANSI regex of text_processor.rs, line 29

The source compiles the regex ESC left-bracket ([0-9]{1,2}(;[0-9]{1,2})*)? [m|K]
and erases every match with replace_all.  The functions below implement
that matcher directly: at a given position a match, when one exists, is
unique (a final byte is neither a digit nor a semicolon, so no match is
a proper prefix of another at the same position), hence the greedy
scan below agrees with the regex engine. -/

/-- Greedily consume groups of the shape semicolon digit digit?
mirroring the starred group of the regex.  Returns the unconsumed
suffix; when an iteration cannot complete, the scan stops before it. -/
def skipGroups : List Char → List Char
  | ';' :: c1 :: rest =>
    if c1.isDigit then
      match rest with
      | c2 :: rest2 => if c2.isDigit then skipGroups rest2 else skipGroups (c2 :: rest2)
      | [] => []
    else ';' :: c1 :: rest
  | l => l

/-- Greedily consume the optional parameter block after ESC
left-bracket: one or two digits, then the starred semicolon groups.
Returns the unconsumed suffix. -/
def ansiParams (l : List Char) : List Char :=
  match l with
  | c1 :: rest =>
    if c1.isDigit then
      skipGroups
        (match rest with
         | c2 :: rest2 => if c2.isDigit then rest2 else c2 :: rest2
         | [] => [])
    else c1 :: rest
  | [] => []

/-- Complete a match after ESC left-bracket has been consumed: the
optional parameter block, then a final byte.  Returns the remainder of
the line after the match, or none when no match starts here. -/
def ansiTail (l : List Char) : Option (List Char) :=
  match ansiParams l with
  | f :: rest => if ansiFinal f then some rest else none
  | [] => none

/-- A whole-regex match attempt at the head of the list. -/
def ansiMatch : List Char → Option (List Char)
  | '\x1B' :: '[' :: rest => ansiTail rest
  | _ => none

theorem skipGroups_length : ∀ l : List Char, (skipGroups l).length ≤ l.length := by
  intro l
  induction l using skipGroups.induct with
  | case1 c1 h c2 rest2 h2 ih =>
    rw [skipGroups.eq_def]
    simp [h, h2]
    omega
  | case2 c1 h c2 rest2 h2 ih =>
    rw [skipGroups.eq_def]
    simp [h, h2] at ih ⊢
    omega
  | case3 c1 h =>
    rw [skipGroups.eq_def]
    simp [h]
  | case4 c1 rest h =>
    rw [skipGroups.eq_def]
    simp [h]
  | case5 l h =>
    rw [skipGroups.eq_def]
    cases l with
    | nil => simp
    | cons c rest =>
      cases rest with
      | nil => simp
      | cons c1 rest1 =>
        have hne : ¬ c = ';' := fun hc => h c1 rest1 (by rw [hc])
        simp [hne]

theorem ansiParams_length (l : List Char) : (ansiParams l).length ≤ l.length := by
  cases l with
  | nil => simp [ansiParams]
  | cons c1 rest =>
    by_cases hd : c1.isDigit
    · cases rest with
      | nil =>
        simp [ansiParams, hd, skipGroups]
      | cons c2 rest2 =>
        by_cases hd2 : c2.isDigit
        · have := skipGroups_length rest2
          simp [ansiParams, hd, hd2]
          omega
        · have := skipGroups_length (c2 :: rest2)
          simp [ansiParams, hd, hd2]
          simp at this
          omega
    · simp [ansiParams, hd]

theorem ansiTail_length {l r : List Char} (h : ansiTail l = some r) :
    r.length < l.length := by
  unfold ansiTail at h
  cases hp : ansiParams l with
  | nil => rw [hp] at h; simp at h
  | cons f rest =>
    rw [hp] at h
    by_cases hf : ansiFinal f
    · simp [hf] at h
      subst h
      have := ansiParams_length l
      rw [hp] at this
      simp at this
      omega
    · simp [hf] at h

theorem ansiMatch_length {l r : List Char} (h : ansiMatch l = some r) :
    r.length < l.length := by
  unfold ansiMatch at h
  split at h
  · have := ansiTail_length h
    simp
    omega
  · simp at h

/-- The replace_all loop with the empty replacement: scan left to
right, erase each match, continue after it.  The loop consumes at
least one character per step, so it is run on the fuel of the line
length; the fuel-exhausted arm is unreachable (stripAnsiF_irrel). -/
def stripAnsiF : Nat → List Char → List Char
  | _, [] => []
  | 0, l => l
  | fuel + 1, c :: rest =>
    match ansiMatch (c :: rest) with
    | some r => stripAnsiF fuel r
    | none => c :: stripAnsiF fuel rest

def stripAnsi (l : List Char) : List Char :=
  stripAnsiF l.length l

theorem stripAnsiF_irrel :
    ∀ (n m : Nat) (l : List Char), l.length ≤ n → l.length ≤ m →
      stripAnsiF n l = stripAnsiF m l := by
  intro n
  induction n with
  | zero =>
    intro m l hn _
    have : l = [] := List.eq_nil_of_length_eq_zero (Nat.le_zero.mp hn)
    subst this
    cases m <;> rfl
  | succ n ih =>
    intro m l hn hm
    cases l with
    | nil => cases m <;> rfl
    | cons c rest =>
      cases m with
      | zero => simp at hm
      | succ m =>
        show (match ansiMatch (c :: rest) with
          | some r => stripAnsiF n r
          | none => c :: stripAnsiF n rest) =
          (match ansiMatch (c :: rest) with
          | some r => stripAnsiF m r
          | none => c :: stripAnsiF m rest)
        cases hmt : ansiMatch (c :: rest) with
        | some r =>
          have hlt := ansiMatch_length hmt
          simp only []
          exact ih m r (by simp at hlt hn ⊢; omega) (by simp at hlt hm ⊢; omega)
        | none =>
          simp only []
          rw [ih m rest (by simp at hn; omega) (by simp at hm; omega)]

/-- The per-line transform of write_line in text_processor.rs: when
strip_ansi is set, erase regex matches and then filter out control
characters other than tab; otherwise the line passes through. -/
def transformLine (strip : Bool) (line : List Char) : List Char :=
  if strip then
    (stripAnsi line).filter (fun c => !isControlChar c || c == '\t')
  else line

/-! ## Declarative reading of the stripping step

The definitions below restate the transform the way the specification
words it: a CSI sequence is ESC, a left bracket, an optional block of
semicolon-separated groups of one or two digits, and a single final
byte; the transform removes every such sequence and then the remaining
control characters other than tab.  They are phrased over the set of
admissible final bytes so that both the final set claimed by the spec
(m and K) and the one actually denoted by the source regex (m, pipe
and K) can be compared against the implementation above. -/

/-- Final bytes as the specification describes them: m or K only. -/
def specFinal (c : Char) : Bool :=
  c == 'm' || c == 'K'

/-- Exact recogniser for the starred part of the parameter block: a
sequence of groups, each a semicolon followed by one or two digits. -/
def grpTail : List Char → Bool
  | [] => true
  | ';' :: rest =>
    match rest with
    | d1 :: rest1 =>
      d1.isDigit &&
        (grpTail rest1 ||
          match rest1 with
          | d2 :: rest2 => d2.isDigit && grpTail rest2
          | [] => false)
    | [] => false
  | _ => false

/-- Exact recogniser for the whole optional parameter block: empty, or
a first group of one or two digits followed by the starred groups. -/
def paramsBlock : List Char → Bool
  | [] => true
  | d1 :: rest =>
    d1.isDigit &&
      (grpTail rest ||
        match rest with
        | d2 :: rest2 => d2.isDigit && grpTail rest2
        | [] => false)

/-- A complete CSI sequence for a given set of final bytes: ESC, left
bracket, a parameter block, one final byte. -/
def isCsiSeq (fin : Char → Bool) (s : List Char) : Bool :=
  match s with
  | '\x1B' :: '[' :: t =>
    match t.getLast? with
    | some f => fin f && paramsBlock t.dropLast
    | none => false
  | _ => false

/-- Length of the CSI sequence starting at the head of the list, when
one starts there. -/
def findCsiLen (fin : Char → Bool) (l : List Char) : Option Nat :=
  (List.range (l.length + 1)).find? (fun n => isCsiSeq fin (l.take n))

theorem isCsiSeq_length {fin : Char → Bool} {s : List Char}
    (h : isCsiSeq fin s = true) : 3 ≤ s.length := by
  unfold isCsiSeq at h
  split at h
  · next t =>
    cases hg : t.getLast? with
    | none =>
      rw [hg] at h
      simp at h
    | some f =>
      have ht : t ≠ [] := by
        intro hnil
        rw [hnil] at hg
        simp at hg
      have := List.length_pos.mpr ht
      simp only [List.length_cons]
      omega
  · simp at h

theorem findCsiLen_bounds {fin : Char → Bool} {l : List Char} {n : Nat}
    (h : findCsiLen fin l = some n) :
    3 ≤ n ∧ n ≤ l.length ∧ isCsiSeq fin (l.take n) = true := by
  unfold findCsiLen at h
  have hmem := List.mem_of_find?_eq_some h
  have hp := List.find?_some h
  have hle : n ≤ l.length := by
    have := List.mem_range.mp hmem
    omega
  refine ⟨?_, hle, hp⟩
  have := isCsiSeq_length hp
  have hlen : (l.take n).length = n := by
    simp [List.length_take]
    omega
  omega

/-- The stripping step as the specification words it: scan the line,
erase each CSI sequence where one starts, keep other characters.  Like
stripAnsiF it runs on the fuel of the line length, each step consuming
at least one character; the fuel-exhausted arm is unreachable
(specStripF_irrel). -/
def specStripF (fin : Char → Bool) : Nat → List Char → List Char
  | _, [] => []
  | 0, l => l
  | fuel + 1, c :: rest =>
    match findCsiLen fin (c :: rest) with
    | some n => specStripF fin fuel ((c :: rest).drop n)
    | none => c :: specStripF fin fuel rest

def specStrip (fin : Char → Bool) (l : List Char) : List Char :=
  specStripF fin l.length l

theorem specStripF_irrel (fin : Char → Bool) :
    ∀ (n m : Nat) (l : List Char), l.length ≤ n → l.length ≤ m →
      specStripF fin n l = specStripF fin m l := by
  intro n
  induction n with
  | zero =>
    intro m l hn _
    have : l = [] := List.eq_nil_of_length_eq_zero (Nat.le_zero.mp hn)
    subst this
    cases m <;> rfl
  | succ n ih =>
    intro m l hn hm
    cases l with
    | nil => cases m <;> rfl
    | cons c rest =>
      cases m with
      | zero => simp at hm
      | succ m =>
        show (match findCsiLen fin (c :: rest) with
          | some k => specStripF fin n ((c :: rest).drop k)
          | none => c :: specStripF fin n rest) =
          (match findCsiLen fin (c :: rest) with
          | some k => specStripF fin m ((c :: rest).drop k)
          | none => c :: specStripF fin m rest)
        cases hF : findCsiLen fin (c :: rest) with
        | some k =>
          obtain ⟨h3, hle, _⟩ := findCsiLen_bounds hF
          simp only []
          have hdl : ((c :: rest).drop k).length ≤ rest.length := by
            simp [List.length_drop]
            omega
          exact ih m ((c :: rest).drop k) (by simp at hn ⊢; omega) (by simp at hm ⊢; omega)
        | none =>
          simp only []
          rw [ih m rest (by simp at hn; omega) (by simp at hm; omega)]

/-- The whole per-line transform as the specification words it. -/
def specTransform (fin : Char → Bool) (line : List Char) : List Char :=
  (specStrip fin line).filter (fun c => !isControlChar c || c == '\t')

/-! ## Agreement of the greedy matcher with the declarative reading -/

theorem ansiFinal_cases {f : Char} (hf : ansiFinal f = true) :
    f = 'm' ∨ f = '|' ∨ f = 'K' := by
  unfold ansiFinal at hf
  simp at hf
  tauto

theorem ansiFinal_not_digit {f : Char} (hf : ansiFinal f = true) :
    f.isDigit = false := by
  rcases ansiFinal_cases hf with rfl | rfl | rfl <;> decide

theorem ansiFinal_ne_semi {f : Char} (hf : ansiFinal f = true) : f ≠ ';' := by
  rcases ansiFinal_cases hf with rfl | rfl | rfl <;> decide

theorem isDigit_ne_semi {c : Char} (hc : c.isDigit = true) : c ≠ ';' := by
  intro h
  rw [h] at hc
  exact absurd hc (by decide)

theorem grpTail_head {c : Char} {g : List Char}
    (h : grpTail (c :: g) = true) : c = ';' := by
  by_contra hc
  rw [grpTail.eq_def] at h
  simp [hc] at h

/-- The greedy group scanner consumes a valid group block completely
when it is followed by a final byte. -/
theorem skipGroups_greedy :
    ∀ (n : Nat) (g : List Char), g.length ≤ n →
      ∀ (f : Char) (rest : List Char), ansiFinal f = true → grpTail g = true →
        skipGroups (g ++ f :: rest) = f :: rest := by
  intro n
  induction n with
  | zero =>
    intro g hg f rest hf _
    have : g = [] := List.eq_nil_of_length_eq_zero (Nat.le_zero.mp hg)
    subst this
    rw [List.nil_append, skipGroups.eq_def]
    simp [ansiFinal_ne_semi hf]
  | succ n ih =>
    intro g hg f rest hf hgt
    cases g with
    | nil =>
      rw [List.nil_append, skipGroups.eq_def]
      simp [ansiFinal_ne_semi hf]
    | cons c g' =>
      have hc := grpTail_head hgt
      subst hc
      rw [grpTail.eq_def] at hgt
      cases g' with
      | nil => simp at hgt
      | cons d1 g1 =>
        simp only [Bool.and_eq_true] at hgt
        obtain ⟨hd1, hrest⟩ := hgt
        rw [List.cons_append, List.cons_append, skipGroups.eq_def]
        simp only [hd1, if_true]
        cases g1 with
        | nil =>
          simp only [List.nil_append]
          simp [ansiFinal_not_digit hf, ansiFinal_ne_semi hf, skipGroups.eq_def]
        | cons e g2 =>
          rcases Bool.or_eq_true_iff.mp hrest with hA | hB
          · have he : e = ';' := grpTail_head hA
            have hed : e.isDigit = false := by
              rw [he]
              decide
            simp only [List.cons_append, hed]
            simp only [Bool.false_eq_true, if_false]
            exact ih (e :: g2) (by simp at hg ⊢; omega) f rest hf hA
          · cases hBe : e.isDigit with
            | false =>
              simp [hBe] at hB
            | true =>
              have hg2 : grpTail g2 = true := by
                simp only [hBe] at hB
                simpa using hB
              simp only [List.cons_append, hBe, if_true]
              exact ih g2 (by simp at hg ⊢; omega) f rest hf hg2

/-- Soundness of the greedy group scanner: what it consumed is a valid
group block. -/
theorem skipGroups_sound :
    ∀ l : List Char, ∃ g, grpTail g = true ∧ l = g ++ skipGroups l := by
  intro l
  induction l using skipGroups.induct with
  | case1 c1 h c2 rest2 h2 ih =>
    rcases ih with ⟨g', hg', he⟩
    refine ⟨';' :: c1 :: c2 :: g', ?_, ?_⟩
    · rw [grpTail.eq_def]
      simp [h, h2, hg']
    · rw [skipGroups.eq_def]
      simp only [h, h2, if_true]
      simpa using he
  | case2 c1 h c2 rest2 h2 ih =>
    rcases ih with ⟨g', hg', he⟩
    refine ⟨';' :: c1 :: g', ?_, ?_⟩
    · rw [grpTail.eq_def]
      simp [h, hg']
    · rw [skipGroups.eq_def]
      simp only [h, if_true]
      have h2f : c2.isDigit = false := by
        cases hb : c2.isDigit
        · rfl
        · exact absurd hb h2
      simp only [h2f, Bool.false_eq_true, if_false]
      simpa using he
  | case3 c1 h =>
    refine ⟨[';', c1], ?_, ?_⟩
    · rw [grpTail.eq_def]
      simp [h, grpTail]
    · rw [skipGroups.eq_def]
      simp [h]
  | case4 c1 rest h =>
    refine ⟨[], by simp [grpTail], ?_⟩
    rw [skipGroups.eq_def]
    have hf : c1.isDigit = false := by
      cases hb : c1.isDigit
      · rfl
      · exact absurd hb h
    simp [hf]
  | case5 l h =>
    refine ⟨[], by simp [grpTail], ?_⟩
    rw [skipGroups.eq_def]
    cases l with
    | nil => simp
    | cons c rest =>
      cases rest with
      | nil => simp
      | cons c1 rest1 =>
        have hne : ¬ c = ';' := fun hc => h c1 rest1 (by rw [hc])
        simp [hne]

/-- Completeness of the greedy matcher for the tail of a sequence: a
valid parameter block followed by a final byte is always consumed. -/
theorem ansiTail_complete :
    ∀ (mid : List Char) (f : Char) (rest : List Char),
      paramsBlock mid = true → ansiFinal f = true →
      ansiTail (mid ++ f :: rest) = some rest := by
  intro mid f rest hp hf
  have hfd := ansiFinal_not_digit hf
  have hfs := ansiFinal_ne_semi hf
  cases mid with
  | nil =>
    unfold ansiTail ansiParams
    simp [hfd, hf]
  | cons d1 mid1 =>
    unfold paramsBlock at hp
    simp only [Bool.and_eq_true] at hp
    obtain ⟨hd1, hor⟩ := hp
    unfold ansiTail ansiParams
    simp only [List.cons_append, hd1, if_true]
    cases mid1 with
    | nil =>
      simp only [List.nil_append, hfd, Bool.false_eq_true, if_false]
      rw [skipGroups.eq_def]
      simp [hfs, hf]
    | cons e mid2 =>
      rcases Bool.or_eq_true_iff.mp hor with hA | hB
      · have he : e = ';' := grpTail_head hA
        have hed : e.isDigit = false := by
          rw [he]
          decide
        simp only [List.cons_append, hed, Bool.false_eq_true, if_false]
        rw [← List.cons_append]
        rw [skipGroups_greedy (e :: mid2).length (e :: mid2) (Nat.le_refl _) f rest hf hA]
        simp [hf]
      · simp only [Bool.and_eq_true] at hB
        obtain ⟨hed, hg2⟩ := hB
        simp only [List.cons_append, hed, if_true]
        rw [skipGroups_greedy mid2.length mid2 (Nat.le_refl _) f rest hf hg2]
        simp [hf]

/-- Completeness of the whole-line matcher: wherever the declarative
reading recognises a sequence, the greedy matcher succeeds and
consumes exactly that sequence. -/
theorem ansiMatch_complete {l : List Char} {n : Nat}
    (hseq : isCsiSeq ansiFinal (l.take n) = true) (hle : n ≤ l.length) :
    ansiMatch l = some (l.drop n) := by
  unfold isCsiSeq at hseq
  split at hseq
  · next t heq =>
    cases hg : t.getLast? with
    | none =>
      rw [hg] at hseq
      simp at hseq
    | some f =>
      rw [hg] at hseq
      simp only [Bool.and_eq_true] at hseq
      obtain ⟨hf, hpar⟩ := hseq
      have htne : t ≠ [] := by
        intro h0
        rw [h0] at hg
        simp at hg
      have hgl : t.getLast htne = f := by
        rw [List.getLast?_eq_getLast t htne] at hg
        injection hg
      have hdec : t.dropLast ++ [f] = t := by
        rw [← hgl]
        exact List.dropLast_append_getLast htne
      set d := l.drop n with hd
      have hl : l = '\x1B' :: '[' :: (t.dropLast ++ (f :: d)) := by
        conv_lhs => rw [← List.take_append_drop n l]
        rw [heq, ← hd]
        conv_lhs => rw [← hdec]
        simp
      rw [hl]
      have step : ansiMatch ('\x1B' :: '[' :: (t.dropLast ++ (f :: d)))
          = ansiTail (t.dropLast ++ (f :: d)) := rfl
      rw [step, ansiTail_complete t.dropLast f d hpar hf]
  · simp at hseq

/-- Soundness of the greedy tail matcher: a success decomposes the
input into a parameter block, a final byte, and the remainder. -/
theorem ansiTail_sound {l r : List Char} (h : ansiTail l = some r) :
    ∃ mid f, l = mid ++ f :: r ∧ paramsBlock mid = true ∧ ansiFinal f = true := by
  unfold ansiTail at h
  cases l with
  | nil =>
    unfold ansiParams at h
    simp at h
  | cons c1 rest =>
    by_cases hd : c1.isDigit = true
    · cases rest with
      | nil =>
        unfold ansiParams at h
        simp [hd, skipGroups] at h
      | cons c2 rest2 =>
        by_cases hd2 : c2.isDigit = true
        · have hAP : ansiParams (c1 :: c2 :: rest2) = skipGroups rest2 := by
            unfold ansiParams
            simp [hd, hd2]
          rw [hAP] at h
          obtain ⟨g, hg, he⟩ := skipGroups_sound rest2
          cases hsk : skipGroups rest2 with
          | nil =>
            rw [hsk] at h
            simp at h
          | cons f r' =>
            rw [hsk] at h
            by_cases hf : ansiFinal f = true
            · simp [hf] at h
              subst h
              rw [hsk] at he
              refine ⟨c1 :: c2 :: g, f, ?_, ?_, hf⟩
              · simp [he]
              · unfold paramsBlock
                simp [hd, hd2, hg]
            · simp [hf] at h
        · have hAP : ansiParams (c1 :: c2 :: rest2) = skipGroups (c2 :: rest2) := by
            unfold ansiParams
            simp [hd, hd2]
          rw [hAP] at h
          obtain ⟨g, hg, he⟩ := skipGroups_sound (c2 :: rest2)
          cases hsk : skipGroups (c2 :: rest2) with
          | nil =>
            rw [hsk] at h
            simp at h
          | cons f r' =>
            rw [hsk] at h
            by_cases hf : ansiFinal f = true
            · simp [hf] at h
              subst h
              rw [hsk] at he
              refine ⟨c1 :: g, f, ?_, ?_, hf⟩
              · simp [he]
              · unfold paramsBlock
                simp [hd, hg]
            · simp [hf] at h
    · have hAP : ansiParams (c1 :: rest) = c1 :: rest := by
        unfold ansiParams
        simp [hd]
      rw [hAP] at h
      by_cases hf : ansiFinal c1 = true
      · simp [hf] at h
        subst h
        exact ⟨[], c1, by simp, by simp [paramsBlock], hf⟩
      · simp [hf] at h

/-- Soundness of the whole-line matcher: a success means a declarative
sequence of some length sits at the head of the line. -/
theorem ansiMatch_sound {l r : List Char} (h : ansiMatch l = some r) :
    ∃ n, 3 ≤ n ∧ n ≤ l.length ∧ isCsiSeq ansiFinal (l.take n) = true ∧ r = l.drop n := by
  unfold ansiMatch at h
  split at h
  · next rest =>
    obtain ⟨mid, f, hleq, hpar, hf⟩ := ansiTail_sound h
    subst hleq
    refine ⟨mid.length + 3, by omega, ?_, ?_, ?_⟩
    · simp
    · have htake : ('\x1B' :: '[' :: (mid ++ f :: r)).take (mid.length + 3)
          = '\x1B' :: '[' :: (mid ++ [f]) := by
        simp [List.take_append_eq_append_take, List.take_of_length_le]
      rw [htake]
      unfold isCsiSeq
      simp [List.getLast?_concat, List.dropLast_concat, hf, hpar]
    · have hdrop : ('\x1B' :: '[' :: (mid ++ f :: r)).drop (mid.length + 3) = r := by
        simp [List.drop_append_eq_append_drop]
      rw [hdrop]
  · simp at h

end WslClip

namespace WslClip

theorem stripAnsi_cons_match {c : Char} {rest r : List Char}
    (hm : ansiMatch (c :: rest) = some r) :
    stripAnsi (c :: rest) = stripAnsi r := by
  unfold stripAnsi
  have hstep : stripAnsiF ((c :: rest).length) (c :: rest) = stripAnsiF rest.length r := by
    show (match ansiMatch (c :: rest) with
      | some r' => stripAnsiF rest.length r'
      | none => c :: stripAnsiF rest.length rest) = stripAnsiF rest.length r
    rw [hm]
  rw [hstep]
  exact stripAnsiF_irrel rest.length r.length r
    (by have := ansiMatch_length hm; simp at this; omega) (Nat.le_refl _)

theorem stripAnsi_cons_nomatch {c : Char} {rest : List Char}
    (hm : ansiMatch (c :: rest) = none) :
    stripAnsi (c :: rest) = c :: stripAnsi rest := by
  unfold stripAnsi
  show (match ansiMatch (c :: rest) with
    | some r' => stripAnsiF rest.length r'
    | none => c :: stripAnsiF rest.length rest) = c :: stripAnsiF rest.length rest
  rw [hm]

theorem specStrip_cons_find {fin : Char → Bool} {c : Char} {rest : List Char} {n : Nat}
    (hF : findCsiLen fin (c :: rest) = some n) :
    specStrip fin (c :: rest) = specStrip fin ((c :: rest).drop n) := by
  unfold specStrip
  obtain ⟨h3, hle, _⟩ := findCsiLen_bounds hF
  have hstep : specStripF fin ((c :: rest).length) (c :: rest)
      = specStripF fin rest.length ((c :: rest).drop n) := by
    show (match findCsiLen fin (c :: rest) with
      | some k => specStripF fin rest.length ((c :: rest).drop k)
      | none => c :: specStripF fin rest.length rest) =
      specStripF fin rest.length ((c :: rest).drop n)
    rw [hF]
  rw [hstep]
  exact specStripF_irrel fin rest.length ((c :: rest).drop n).length ((c :: rest).drop n)
    (by simp [List.length_drop] at hle ⊢; omega) (Nat.le_refl _)

theorem specStrip_cons_nofind {fin : Char → Bool} {c : Char} {rest : List Char}
    (hF : findCsiLen fin (c :: rest) = none) :
    specStrip fin (c :: rest) = c :: specStrip fin rest := by
  unfold specStrip
  show (match findCsiLen fin (c :: rest) with
    | some k => specStripF fin rest.length ((c :: rest).drop k)
    | none => c :: specStripF fin rest.length rest) = c :: specStripF fin rest.length rest
  rw [hF]

theorem findCsiLen_isSome {l : List Char} {n : Nat}
    (hle : n ≤ l.length) (hseq : isCsiSeq ansiFinal (l.take n) = true) :
    ∃ m, findCsiLen ansiFinal l = some m := by
  unfold findCsiLen
  cases hF : (List.range (l.length + 1)).find? (fun k => isCsiSeq ansiFinal (l.take k)) with
  | some m => exact ⟨m, rfl⟩
  | none =>
    exfalso
    rw [List.find?_eq_none] at hF
    exact absurd hseq (by simpa using hF n (List.mem_range.mpr (by omega)))

/-- The two scans agree on every line: the greedy matcher erases
exactly the declaratively characterised CSI sequences of the source
regex, the ones whose final byte is m, pipe or K. -/
theorem stripAnsi_eq_specStrip_aux :
    ∀ (n : Nat) (l : List Char), l.length ≤ n →
      stripAnsi l = specStrip ansiFinal l := by
  intro n
  induction n with
  | zero =>
    intro l hl
    have : l = [] := List.eq_nil_of_length_eq_zero (Nat.le_zero.mp hl)
    subst this
    rfl
  | succ n ih =>
    intro l hl
    cases l with
    | nil => rfl
    | cons c rest =>
      cases hm : ansiMatch (c :: rest) with
      | some r =>
        obtain ⟨n0, h30, hle0, hseq0, hr0⟩ := ansiMatch_sound hm
        obtain ⟨m, hF⟩ := findCsiLen_isSome hle0 hseq0
        obtain ⟨h3m, hlem, hseqm⟩ := findCsiLen_bounds hF
        have hmm := ansiMatch_complete hseqm hlem
        rw [hm] at hmm
        injection hmm with hrm
        rw [stripAnsi_cons_match hm, specStrip_cons_find hF, ← hrm]
        exact ih r (by have := ansiMatch_length hm; simp at this hl ⊢; omega)
      | none =>
        have hFn : findCsiLen ansiFinal (c :: rest) = none := by
          cases hF : findCsiLen ansiFinal (c :: rest) with
          | none => rfl
          | some m =>
            obtain ⟨h3m, hlem, hseqm⟩ := findCsiLen_bounds hF
            have := ansiMatch_complete hseqm hlem
            rw [hm] at this
            exact absurd this (by simp)
        rw [stripAnsi_cons_nomatch hm, specStrip_cons_nofind hFn]
        rw [ih rest (by simp at hl; omega)]

theorem stripAnsi_eq_specStrip (l : List Char) :
    stripAnsi l = specStrip ansiFinal l :=
  stripAnsi_eq_specStrip_aux l.length l (Nat.le_refl _)

/-- The implemented per-line transform coincides with the declarative
transform built on the final-byte set of the source regex. -/
theorem transformLine_eq_specTransform (l : List Char) :
    transformLine true l = specTransform ansiFinal l := by
  unfold transformLine specTransform
  rw [stripAnsi_eq_specStrip]
  rfl

end WslClip

namespace WslClip

/-! ## Classifier (src/classifier.rs) -/

/-- The three clipboard strategies of classifier.rs. -/
inductive ClipboardStrategy
  | image
  | file
  | text
deriving DecidableEq

/-- The ASSET_EXTS table of classifier.rs: extensions always treated
as file objects. -/
def ASSET_EXTS : List (List Char) :=
  ([ "dxf", "obj", "stl", "ply", "gcode", "svg", "eps", "ai", "psd", "pdf",
     "zip", "7z", "tar", "gz", "rar", "iso", "dll", "bin", "exe", "jar",
     "class" ]).map String.toList

/-- The final path component: everything after the last slash. -/
def fileNamePart (p : List Char) : List Char :=
  ((p.reverse).takeWhile (fun c => !(c == '/'))).reverse

/-- Model of Rust Path::extension: the part of the file name after its
last dot; none when the name has no dot, or when its only dot is the
leading character.  Dot-only components such as the parent-directory
marker, and paths with a trailing separator (where Rust backs up to
the last real component), are not modelled specially; no claim below
depends on those corners. -/
def extension? (p : List Char) : Option (List Char) :=
  let r := (fileNamePart p).reverse
  match r.dropWhile (fun c => !(c == '.')) with
  | '.' :: stemRev =>
    if stemRev.isEmpty then none
    else some (r.takeWhile (fun c => !(c == '.'))).reverse
  | _ => none

/-- Lower-casing used for the extension comparison; the table is pure
ASCII, so the ASCII mapping of Char.toLower is adequate. -/
def lowerAscii (l : List Char) : List Char :=
  l.map Char.toLower

/-- is_asset_extension of classifier.rs: the lower-cased extension is
looked up in the table; a path without extension never matches. -/
def is_asset_extension (p : List Char) : Bool :=
  match extension? p with
  | some e => ASSET_EXTS.contains (lowerAscii e)
  | none => false

/-- The classifier consults the third-party infer crate through four
boolean matchers over the sampled prefix; the embedding abstracts that
library as a record of such matchers. -/
structure SigLib where
  is_image : List Nat → Bool
  is_archive : List Nat → Bool
  is_app : List Nat → Bool
  is_doc : List Nat → Bool

/-- A signature library with constant matchers, used to instantiate
theorems that hold for every library. -/
def constLib (b : Bool) : SigLib :=
  ⟨fun _ => b, fun _ => b, fun _ => b, fun _ => b⟩

/-- Outcome of File::open followed by the single read call: the open
can fail; a successful open yields either the bytes the read returned
(at most the 262-byte buffer is kept) or a read error, which the
source collapses to a zero-byte read with unwrap_or(0). -/
inductive FileAccess
  | openFail
  | opened (readRes : Option (List Nat))
deriving DecidableEq

/-- inspect of classifier.rs: extension override first, then magic
bytes on the sampled prefix, then the null-byte heuristic, then the
text default.  The error value models the bail on a failed open. -/
def inspect (lib : SigLib) (p : List Char) (fa : FileAccess) :
    Except Unit ClipboardStrategy :=
  if is_asset_extension p then .ok .file
  else
    match fa with
    | .openFail => .error ()
    | .opened readRes =>
      let bytes := match readRes with
        | none => []
        | some bs => bs
      let buffer := bytes.take 262
      if lib.is_image buffer then .ok .image
      else if lib.is_archive buffer || lib.is_app buffer || lib.is_doc buffer then .ok .file
      else if buffer.contains 0 then .ok .file
      else .ok .text

/-! ## Smart-mode dispatch (src/main.rs, lines 116 to 177) -/

/-- The four possible outcomes of the smart-mode block. -/
inductive DispatchOutcome
  | rejectedMixed (img fileC textC : Nat)
  | singleImage (p : List Char)
  | multiAsFileObjects (ps : List (List Char))
  | fallThroughText
deriving DecidableEq

/-- Count of one verdict among the classified inputs. -/
def countStrat (s : ClipboardStrategy) (l : List (List Char × ClipboardStrategy)) : Nat :=
  l.countP (fun x => x.2 == s)

/-- The smart-mode decision of main.rs as a function of the classified
inputs: the mixed-content check over the three tallies, then the image
branch (a single input versus several), then the file branch, then the
fall-through to the text pipeline. -/
def dispatch (l : List (List Char × ClipboardStrategy)) : DispatchOutcome :=
  let img := countStrat .image l
  let fileC := countStrat .file l
  let textC := countStrat .text l
  let cats := (if img > 0 then 1 else 0) + (if fileC > 0 then 1 else 0) +
    (if textC > 0 then 1 else 0)
  if cats > 1 then .rejectedMixed img fileC textC
  else if img > 0 then
    if l.length = 1 then .singleImage ((l.headD ([], .text)).1)
    else .multiAsFileObjects (l.map (fun x => x.1))
  else if fileC > 0 then .multiAsFileObjects (l.map (fun x => x.1))
  else .fallThroughText

/-- The constructor of an outcome, numbered; permutation claims are
about this value. -/
def outcomeCategory : DispatchOutcome → Nat
  | .rejectedMixed _ _ _ => 0
  | .singleImage _ => 1
  | .multiAsFileObjects _ => 2
  | .fallThroughText => 3

end WslClip

namespace WslClip

/-! ## Streaming text pipeline (src/text_processor.rs) -/

/-- The TextOptions record of text_processor.rs. -/
structure TextOptions where
  no_header : Bool
  strip_ansi : Bool
  use_markdown : Bool
  use_crlf : Bool
deriving DecidableEq

/-- One input path together with the state the filesystem gives it:
okFile models the conjunction of exists() and is_file(); lines models
the sequence BufRead::lines yields for it, terminators already
stripped by the reader. -/
structure FileEntry where
  path : List Char
  okFile : Bool
  lines : List (List Char)
deriving DecidableEq

/-- One write_all call on the sink writer. -/
abbrev Chunk := List Char

/-- The str::replace of newline by CRLF applied to the header, fence
and footer strings when use_crlf is set. -/
def replaceLF : List Char → List Char
  | [] => []
  | '\n' :: rest => '\r' :: '\n' :: replaceLF rest
  | c :: rest => c :: replaceLF rest

def crlfAdj (crlf : Bool) (s : List Char) : List Char :=
  if crlf then replaceLF s else s

/-- The terminator write_line appends after the processed line, also
used for the spacer between files. -/
def lineEnd (crlf : Bool) : Chunk :=
  if crlf then ['\r', '\n'] else ['\n']

def headerMark : List Char := ("# FILE: ").toList

def footerMark : List Char := ("# End of FILES. SENT: ").toList

/-- The header line of one file before CRLF adjustment. -/
def headerText (p ts : List Char) : List Char :=
  headerMark ++ p ++ (" READ: ").toList ++ ts ++ ['\n']

/-- The opening markdown fence, tagged with the extension. -/
def fenceOpen (p : List Char) : List Char :=
  ("```").toList ++ (extension? p).getD [] ++ ['\n']

/-- The closing markdown fence. -/
def fenceClose : List Char :=
  ("```").toList ++ ['\n']

/-- The footer line before CRLF adjustment: the space-joined processed
path list. -/
def footerText (processed : List (List Char)) : List Char :=
  footerMark ++ (List.intercalate ([' ']) processed) ++ ['\n']

/-- The two chunks write_line emits for one line. -/
def lineChunks (opts : TextOptions) (ln : List Char) : List Chunk :=
  [transformLine opts.strip_ansi ln, lineEnd opts.use_crlf]

/-- The chunks the loop body emits for one surviving file: header,
opening fence, the lines, closing fence, spacer, each under its
option. -/
def fileChunks (opts : TextOptions) (ts : List Char) (e : FileEntry) : List Chunk :=
  (if opts.no_header then [] else [crlfAdj opts.use_crlf (headerText e.path ts)]) ++
  (if opts.use_markdown then [crlfAdj opts.use_crlf (fenceOpen e.path)] else []) ++
  e.lines.flatMap (lineChunks opts) ++
  (if opts.use_markdown then [crlfAdj opts.use_crlf fenceClose] else []) ++
  (if opts.no_header then [] else [lineEnd opts.use_crlf])

/-- Lexicographic comparison of path strings: the sort key of the
file_list.sort() call.  Rust orders paths by their component sequence;
on the plain strings modelled here the lexicographic order plays that
role, and no claim below depends on the difference. -/
def pathLe : List Char → List Char → Bool
  | [], _ => true
  | _ :: _, [] => false
  | a :: xs, b :: ys => if a = b then pathLe xs ys else decide (a < b)

/-- The order file_list.sort() sorts the entries by. -/
def entryLe (a b : FileEntry) : Prop :=
  pathLe a.path b.path = true

instance : DecidableRel entryLe := fun a b => by
  unfold entryLe
  infer_instance

/-- The sorted file list the loop walks.  Vec::sort of the source is a
stable sort by the path order; a stable sort is a function of the
order and the input alone, so the stable insertion sort denotes the
same list. -/
def sortEntries (l : List FileEntry) : List FileEntry :=
  List.insertionSort entryLe l

/-- processed_list: the paths of the entries that survive the skip
check, in loop order. -/
def processedOf (l : List FileEntry) : List (List Char) :=
  (l.filter (fun e => e.okFile)).map (fun e => e.path)

/-- Concatenated chunks of the whole loop over the (already sorted)
list: skipped entries contribute nothing. -/
def filesChunks (opts : TextOptions) (ts : List Char) (l : List FileEntry) : List Chunk :=
  (l.filter (fun e => e.okFile)).flatMap (fileChunks opts ts)

def footerChunk (opts : TextOptions) (processed : List (List Char)) : Chunk :=
  crlfAdj opts.use_crlf (footerText processed)

/-- File-list mode of process_input: an empty list returns at once;
otherwise sort, stream every surviving file, and append the footer
exactly when headers are on and total_files, the length of the input
list with the skipped entries included, exceeds one. -/
def runFiles (opts : TextOptions) (ts : List Char) (fl : List FileEntry) : List Chunk :=
  if fl.isEmpty then []
  else
    let sorted := sortEntries fl
    let body := filesChunks opts ts sorted
    if !opts.no_header && decide (1 < fl.length) then
      body ++ [footerChunk opts (processedOf sorted)]
    else body

/-- The one failure process_input itself raises: the no-input bail of
stdin mode. -/
inductive PErr
  | usage
deriving DecidableEq

/-- State of the invoking standard input: whether it is an interactive
terminal, and the lines it would deliver. -/
structure StdinState where
  is_tty : Bool
  lines : List (List Char)
deriving DecidableEq

/-- process_input of text_processor.rs over the filesystem model:
file-list mode above, or stdin mode with the atty check and the bare
line loop.  Read and write failures are outside the model; the
timestamp ts is the single Utc::now value captured before the loop. -/
def process_input (files : Option (List FileEntry)) (opts : TextOptions)
    (ts : List Char) (stdin : StdinState) : Except PErr (List Chunk) :=
  match files with
  | some fl => .ok (runFiles opts ts fl)
  | none =>
    if stdin.is_tty then .error .usage
    else .ok (stdin.lines.flatMap (lineChunks opts))

/-! ## Text-mode orchestration (src/main.rs, lines 179 to 204) -/

/-- Interactions with the clipboard sink during text mode. -/
inductive SinkEvent
  | openTextChannel
  | writeChunk (c : Chunk)
  | waitChannel
deriving DecidableEq

/-- The text-mode tail of main: start_text_stream spawns clip.exe
first, opening the byte stream to the sink; then process_input streams
into its pipe; then wait.  When process_input fails nothing has been
written, but the channel is already open. -/
def runTextMode (files : Option (List FileEntry)) (opts : TextOptions)
    (ts : List Char) (stdin : StdinState) : List SinkEvent × Option PErr :=
  match process_input files opts ts stdin with
  | .ok chunks =>
    (SinkEvent.openTextChannel :: (chunks.map SinkEvent.writeChunk) ++ [SinkEvent.waitChannel],
      none)
  | .error e => ([SinkEvent.openTextChannel], some e)

/-- Recogniser for an emitted header chunk: it opens with the header
mark and, unlike any emitted content line, carries a newline. -/
def isHeaderChunk (c : Chunk) : Bool :=
  (c.take headerMark.length == headerMark) && c.contains '\n'

/-- Recogniser for an emitted footer chunk. -/
def isFooterChunk (c : Chunk) : Bool :=
  (c.take footerMark.length == footerMark) && c.contains '\n'

end WslClip

namespace WslClip

/-! ## Order facts for the path sort -/

theorem pathLe_total : ∀ x y : List Char, pathLe x y || pathLe y x := by
  intro x
  induction x with
  | nil =>
    intro y
    simp [pathLe]
  | cons a xs ih =>
    intro y
    cases y with
    | nil => simp [pathLe]
    | cons b ys =>
      by_cases hab : a = b
      · subst hab
        simpa [pathLe] using ih ys
      · have hba : ¬ b = a := fun h => hab h.symm
        simp [pathLe, hab, hba]

theorem pathLe_trans :
    ∀ x y z : List Char, pathLe x y = true → pathLe y z = true → pathLe x z = true := by
  intro x
  induction x with
  | nil =>
    intro y z _ _
    simp [pathLe]
  | cons a xs ih =>
    intro y z h1 h2
    cases y with
    | nil => simp [pathLe] at h1
    | cons b ys =>
      cases z with
      | nil => simp [pathLe] at h2
      | cons c zs =>
        by_cases hab : a = b
        · subst hab
          by_cases hbc : a = c
          · subst hbc
            simp [pathLe] at h1 h2 ⊢
            exact ih ys zs h1 h2
          · simp [pathLe, hbc] at h2 ⊢
            exact h2
        · simp [pathLe, hab] at h1
          by_cases hbc : b = c
          · subst hbc
            simp [pathLe, hab]
            exact h1
          · simp [pathLe, hbc] at h2
            have hac : a < c := lt_trans h1 h2
            have : ¬ a = c := ne_of_lt hac
            simp [pathLe, this]
            exact hac

theorem pathLe_antisymm :
    ∀ x y : List Char, pathLe x y = true → pathLe y x = true → x = y := by
  intro x
  induction x with
  | nil =>
    intro y h1 h2
    cases y with
    | nil => rfl
    | cons b ys => simp [pathLe] at h2
  | cons a xs ih =>
    intro y h1 h2
    cases y with
    | nil => simp [pathLe] at h1
    | cons b ys =>
      by_cases hab : a = b
      · subst hab
        simp [pathLe] at h1 h2
        rw [ih ys h1 h2]
      · have hba : ¬ b = a := fun h => hab h.symm
        simp [pathLe, hab] at h1
        simp [pathLe, hba] at h2
        exact absurd h2 (not_lt_of_gt h1)

/-- Sorted permutations with pairwise-distinct sort keys are equal,
stated for the entry order used by the pipeline. -/
theorem sorted_perm_eq_of_inj :
    ∀ (l1 l2 : List FileEntry), l1.Perm l2 →
      l1.Pairwise (fun a b => pathLe a.path b.path = true) →
      l2.Pairwise (fun a b => pathLe a.path b.path = true) →
      (∀ a ∈ l1, ∀ b ∈ l1, a.path = b.path → a = b) →
      l1 = l2 := by
  intro l1
  induction l1 with
  | nil =>
    intro l2 hperm _ _ _
    exact (List.Perm.nil_eq hperm).symm.symm
  | cons a t1 ih =>
    intro l2 hperm hs1 hs2 hinj
    cases l2 with
    | nil => exact absurd hperm.symm (by simp)
    | cons b t2 =>
      have hab : a = b := by
        by_cases heq : a = b
        · exact heq
        · have ha2 : a ∈ t2 := by
            have := hperm.subset (List.mem_cons_self a t1)
            rcases List.mem_cons.mp this with h | h
            · exact absurd h heq
            · exact h
          have hb1 : b ∈ t1 := by
            have := hperm.symm.subset (List.mem_cons_self b t2)
            rcases List.mem_cons.mp this with h | h
            · exact absurd h.symm heq
            · exact h
          have h1 : pathLe a.path b.path = true := List.rel_of_pairwise_cons hs1 hb1
          have h2 : pathLe b.path a.path = true := List.rel_of_pairwise_cons hs2 ha2
          have hpe := pathLe_antisymm _ _ h1 h2
          exact hinj a (List.mem_cons_self a t1) b (List.mem_cons_of_mem a hb1) hpe
      subst hab
      have ht : t1.Perm t2 := hperm.cons_inv
      have := ih t2 ht (List.Pairwise.of_cons hs1) (List.Pairwise.of_cons hs2)
        (fun x hx y hy hxy => hinj x (List.mem_cons_of_mem a hx) y (List.mem_cons_of_mem a hy) hxy)
      rw [this]

/-- The sort output is sorted for the entry order. -/
instance : IsTotal FileEntry entryLe :=
  ⟨fun a b => by
    unfold entryLe
    rcases Bool.or_eq_true_iff.mp (pathLe_total a.path b.path) with h | h
    · exact Or.inl h
    · exact Or.inr h⟩

instance : IsTrans FileEntry entryLe :=
  ⟨fun a b c hab hbc => pathLe_trans a.path b.path c.path hab hbc⟩

theorem sortEntries_sorted (l : List FileEntry) :
    (sortEntries l).Pairwise (fun a b => pathLe a.path b.path = true) := by
  unfold sortEntries
  exact List.sorted_insertionSort entryLe l

/-- Sorting is invariant under permutation of the input list whenever
equal paths carry equal filesystem state. -/
theorem sortEntries_perm_eq {l1 l2 : List FileEntry}
    (hperm : l1.Perm l2)
    (hinj : ∀ a ∈ l1, ∀ b ∈ l1, a.path = b.path → a = b) :
    sortEntries l1 = sortEntries l2 := by
  apply sorted_perm_eq_of_inj
  · exact (List.perm_insertionSort entryLe l1).trans
      (hperm.trans (List.perm_insertionSort entryLe l2).symm)
  · exact sortEntries_sorted l1
  · exact sortEntries_sorted l2
  · intro a ha b hb hab
    exact hinj a ((List.mem_insertionSort entryLe).mp ha) b ((List.mem_insertionSort entryLe).mp hb) hab

end WslClip

namespace WslClip

/-! ## Chunk-shape facts for the pipeline -/

theorem mem_stripAnsi_aux :
    ∀ (n : Nat) (l : List Char), l.length ≤ n → ∀ c ∈ stripAnsi l, c ∈ l := by
  intro n
  induction n with
  | zero =>
    intro l hl c hc
    have : l = [] := List.eq_nil_of_length_eq_zero (Nat.le_zero.mp hl)
    subst this
    simp [stripAnsi, stripAnsiF] at hc
  | succ n ih =>
    intro l hl c hc
    cases l with
    | nil =>
      simp [stripAnsi, stripAnsiF] at hc
    | cons a rest =>
      cases hm : ansiMatch (a :: rest) with
      | some r =>
        rw [stripAnsi_cons_match hm] at hc
        obtain ⟨n0, _, _, _, hr⟩ := ansiMatch_sound hm
        have hrec : c ∈ r :=
          ih r (by have := ansiMatch_length hm; simp at this hl ⊢; omega) c hc
        rw [hr] at hrec
        exact List.drop_subset _ _ hrec
      | none =>
        rw [stripAnsi_cons_nomatch hm] at hc
        rcases List.mem_cons.mp hc with h | h
        · rw [h]
          exact List.mem_cons_self a rest
        · exact List.mem_cons_of_mem a (ih rest (by simp at hl; omega) c h)

theorem mem_stripAnsi {l : List Char} {c : Char} (hc : c ∈ stripAnsi l) : c ∈ l :=
  mem_stripAnsi_aux l.length l (Nat.le_refl _) c hc

theorem mem_transformLine {strip : Bool} {ln : List Char} {c : Char}
    (hc : c ∈ transformLine strip ln) : c ∈ ln := by
  unfold transformLine at hc
  cases strip with
  | false => simpa using hc
  | true =>
    simp only [if_true] at hc
    exact mem_stripAnsi (List.mem_of_mem_filter hc)

theorem replaceLF_cons_ne {a : Char} (ha : ¬ a = '\n') (x : List Char) :
    replaceLF (a :: x) = a :: replaceLF x := by
  rw [replaceLF.eq_def]
  split
  · next heq => simp at heq
  · next rest heq =>
    injection heq with h1 h2
    exact absurd h1 ha
  · next c rest heq =>
    injection heq with h1 h2
    rw [h1, h2]

theorem replaceLF_cons_lf (x : List Char) :
    replaceLF ('\n' :: x) = '\r' :: '\n' :: replaceLF x := by
  rw [replaceLF.eq_def]
  rfl

theorem replaceLF_append_no_lf :
    ∀ (s t : List Char), '\n' ∉ s → replaceLF (s ++ t) = s ++ replaceLF t := by
  intro s
  induction s with
  | nil => simp
  | cons a s' ih =>
    intro t hs
    have ha : ¬ a = '\n' := by
      intro h
      exact hs (by simp [h])
    rw [List.cons_append, replaceLF_cons_ne ha, ih t (by intro h; exact hs (by simp [h]))]
    rfl

theorem mem_lf_replaceLF : ∀ {s : List Char}, '\n' ∈ s → '\n' ∈ replaceLF s := by
  intro s
  induction s with
  | nil => intro h; simp at h
  | cons a s' ih =>
    intro h
    by_cases ha : a = '\n'
    · rw [ha, replaceLF_cons_lf]
      simp
    · rw [replaceLF_cons_ne ha]
      rcases List.mem_cons.mp h with h1 | h1
      · exact absurd h1.symm ha
      · exact List.mem_cons_of_mem a (ih h1)

theorem take_mark_iff (mark c : List Char) :
    ((c.take mark.length == mark) = true) ↔ ∃ rest, c = mark ++ rest := by
  constructor
  · intro h
    have he : c.take mark.length = mark := by simpa using h
    refine ⟨c.drop mark.length, ?_⟩
    conv_lhs => rw [← List.take_append_drop mark.length c]
    rw [he]
  · rintro ⟨rest, rfl⟩
    simp [List.take_left]

theorem take3_of_markAppend (mark rest : List Char) (h3 : 3 ≤ mark.length) :
    (mark ++ rest).take 3 = mark.take 3 := by
  rw [List.take_append_eq_append_take]
  have h0 : 3 - mark.length = 0 := by omega
  simp [h0]

theorem header_take3 {c : Chunk} (h : isHeaderChunk c = true) :
    c.take 3 = headerMark.take 3 := by
  unfold isHeaderChunk at h
  simp only [Bool.and_eq_true] at h
  obtain ⟨rest, rfl⟩ := (take_mark_iff headerMark c).mp h.1
  exact take3_of_markAppend headerMark rest (by decide)

theorem footer_take3 {c : Chunk} (h : isFooterChunk c = true) :
    c.take 3 = footerMark.take 3 := by
  unfold isFooterChunk at h
  simp only [Bool.and_eq_true] at h
  obtain ⟨rest, rfl⟩ := (take_mark_iff footerMark c).mp h.1
  exact take3_of_markAppend footerMark rest (by decide)

/-- A chunk cannot be both header-shaped and footer-shaped: the two
marks differ in their third character. -/
theorem not_header_and_footer {c : Chunk} (hh : isHeaderChunk c = true)
    (hf : isFooterChunk c = true) : False := by
  have h1 := header_take3 hh
  have h2 := footer_take3 hf
  rw [h1] at h2
  exact absurd h2 (by decide)

theorem header_head {c : Chunk} (h : isHeaderChunk c = true) : c.head? = some '#' := by
  unfold isHeaderChunk at h
  simp only [Bool.and_eq_true] at h
  obtain ⟨rest, rfl⟩ := (take_mark_iff headerMark c).mp h.1
  rfl

theorem footer_head {c : Chunk} (h : isFooterChunk c = true) : c.head? = some '#' := by
  unfold isFooterChunk at h
  simp only [Bool.and_eq_true] at h
  obtain ⟨rest, rfl⟩ := (take_mark_iff footerMark c).mp h.1
  rfl

theorem marked_contains_lf {c : Chunk} (h : isHeaderChunk c = true ∨ isFooterChunk c = true) :
    '\n' ∈ c := by
  rcases h with h | h
  · unfold isHeaderChunk at h
    simp only [Bool.and_eq_true] at h
    simpa [List.contains, List.elem_iff] using h.2
  · unfold isFooterChunk at h
    simp only [Bool.and_eq_true] at h
    simpa [List.contains, List.elem_iff] using h.2

end WslClip

namespace WslClip

theorem mark_emit (mark : List Char) (hmark : '\n' ∉ mark) (b : Bool) (tail : List Char)
    (hlf : '\n' ∈ tail) :
    ((crlfAdj b (mark ++ tail)).take mark.length == mark) = true ∧
      '\n' ∈ crlfAdj b (mark ++ tail) := by
  cases b with
  | false =>
    constructor
    · rw [take_mark_iff]
      exact ⟨tail, by simp [crlfAdj]⟩
    · simp [crlfAdj, hlf]
  | true =>
    have hre : replaceLF (mark ++ tail) = mark ++ replaceLF tail :=
      replaceLF_append_no_lf mark tail hmark
    constructor
    · rw [take_mark_iff]
      exact ⟨replaceLF tail, by simp [crlfAdj, hre]⟩
    · simp only [crlfAdj, if_true]
      rw [hre]
      exact List.mem_append.mpr (Or.inr (mem_lf_replaceLF hlf))

theorem isHeaderChunk_emit (b : Bool) (p ts : List Char) :
    isHeaderChunk (crlfAdj b (headerText p ts)) = true := by
  have hassoc : headerText p ts
      = headerMark ++ (p ++ ((" READ: ").toList ++ (ts ++ ['\n']))) := by
    unfold headerText
    simp [List.append_assoc]
  have h := mark_emit headerMark (by decide) b
    (p ++ ((" READ: ").toList ++ (ts ++ ['\n']))) (by simp)
  unfold isHeaderChunk
  rw [Bool.and_eq_true, hassoc]
  exact ⟨h.1, by simpa [List.contains, List.elem_iff] using h.2⟩

theorem isFooterChunk_emit (b : Bool) (processed : List (List Char)) :
    isFooterChunk (crlfAdj b (footerText processed)) = true := by
  have hassoc : footerText processed
      = footerMark ++ ((List.intercalate ([' ']) processed) ++ ['\n']) := by
    unfold footerText
    simp [List.append_assoc]
  have h := mark_emit footerMark (by decide) b
    ((List.intercalate ([' ']) processed) ++ ['\n']) (by simp)
  unfold isFooterChunk
  rw [Bool.and_eq_true, hassoc]
  exact ⟨h.1, by simpa [List.contains, List.elem_iff] using h.2⟩

theorem lineEnd_not_marked (b : Bool) :
    isHeaderChunk (lineEnd b) = false ∧ isFooterChunk (lineEnd b) = false := by
  cases b
  · exact ⟨by decide, by decide⟩
  · exact ⟨by decide, by decide⟩

theorem no_lf_not_marked {c : Chunk} (h : '\n' ∉ c) :
    isHeaderChunk c = false ∧ isFooterChunk c = false := by
  constructor
  · cases hb : isHeaderChunk c
    · rfl
    · exact absurd (marked_contains_lf (Or.inl hb)) h
  · cases hb : isFooterChunk c
    · rfl
    · exact absurd (marked_contains_lf (Or.inr hb)) h

theorem fence_head (b : Bool) (z : List Char) :
    (crlfAdj b (("```").toList ++ z)).head? = (("```").toList).head? := by
  cases b with
  | false => rfl
  | true => rfl

theorem fence_not_marked (b : Bool) (z : List Char) :
    isHeaderChunk (crlfAdj b (("```").toList ++ z)) = false ∧
      isFooterChunk (crlfAdj b (("```").toList ++ z)) = false := by
  have hh := fence_head b z
  constructor
  · cases hb : isHeaderChunk (crlfAdj b (("```").toList ++ z))
    · rfl
    · have := header_head hb
      rw [hh] at this
      exact absurd this (by decide)
  · cases hb : isFooterChunk (crlfAdj b (("```").toList ++ z))
    · rfl
    · have := footer_head hb
      rw [hh] at this
      exact absurd this (by decide)

/-- No chunk of one file body is footer-shaped, given that the reader
never delivers a newline inside a line. -/
theorem fileChunks_footer_free {opts : TextOptions} {ts : List Char} {e : FileEntry}
    (hln : ∀ ln ∈ e.lines, '\n' ∉ ln) :
    ∀ c ∈ fileChunks opts ts e, isFooterChunk c = false := by
  intro c hc
  unfold fileChunks at hc
  simp only [List.mem_append] at hc
  rcases hc with ((((h1 | h2) | h3) | h4) | h5)
  · cases hh : opts.no_header
    · rw [hh] at h1
      simp at h1
      subst h1
      cases hb : isFooterChunk (crlfAdj opts.use_crlf (headerText e.path ts))
      · rfl
      · exact absurd (not_header_and_footer (isHeaderChunk_emit _ _ _) hb) (fun h => h)
    · rw [hh] at h1
      simp at h1
  · cases hm : opts.use_markdown
    · rw [hm] at h2
      simp at h2
    · rw [hm] at h2
      simp at h2
      subst h2
      have hassoc : fenceOpen e.path
          = ("```").toList ++ ((extension? e.path).getD [] ++ ['\n']) := by
        unfold fenceOpen
        simp [List.append_assoc]
      rw [hassoc]
      exact (fence_not_marked _ _).2
  · rw [List.mem_flatMap] at h3
    obtain ⟨ln, hlnm, hcm⟩ := h3
    unfold lineChunks at hcm
    rcases List.mem_cons.mp hcm with h | h
    · subst h
      exact (no_lf_not_marked (fun hlf => hln ln hlnm (mem_transformLine hlf))).2
    · simp at h
      subst h
      exact (lineEnd_not_marked _).2
  · cases hm : opts.use_markdown
    · rw [hm] at h4
      simp at h4
    · rw [hm] at h4
      simp at h4
      subst h4
      unfold fenceClose
      exact (fence_not_marked _ _).2
  · cases hh : opts.no_header
    · rw [hh] at h5
      simp at h5
      subst h5
      exact (lineEnd_not_marked _).2
    · rw [hh] at h5
      simp at h5

/-- The only header-shaped chunk of one file body is the header
emission itself. -/
theorem fileChunks_header_shape {opts : TextOptions} {ts : List Char} {e : FileEntry}
    (hln : ∀ ln ∈ e.lines, '\n' ∉ ln) :
    ∀ c ∈ fileChunks opts ts e, isHeaderChunk c = true →
      c = crlfAdj opts.use_crlf (headerText e.path ts) := by
  intro c hc hhd
  unfold fileChunks at hc
  simp only [List.mem_append] at hc
  rcases hc with ((((h1 | h2) | h3) | h4) | h5)
  · cases hh : opts.no_header
    · rw [hh] at h1
      simp at h1
      exact h1
    · rw [hh] at h1
      simp at h1
  · cases hm : opts.use_markdown
    · rw [hm] at h2
      simp at h2
    · rw [hm] at h2
      simp at h2
      subst h2
      have hassoc : fenceOpen e.path
          = ("```").toList ++ ((extension? e.path).getD [] ++ ['\n']) := by
        unfold fenceOpen
        simp [List.append_assoc]
      rw [hassoc] at hhd
      rw [(fence_not_marked _ _).1] at hhd
      exact absurd hhd (by simp)
  · rw [List.mem_flatMap] at h3
    obtain ⟨ln, hlnm, hcm⟩ := h3
    unfold lineChunks at hcm
    rcases List.mem_cons.mp hcm with h | h
    · subst h
      rw [(no_lf_not_marked (fun hlf => hln ln hlnm (mem_transformLine hlf))).1] at hhd
      exact absurd hhd (by simp)
    · simp at h
      subst h
      rw [(lineEnd_not_marked _).1] at hhd
      exact absurd hhd (by simp)
  · cases hm : opts.use_markdown
    · rw [hm] at h4
      simp at h4
    · rw [hm] at h4
      simp at h4
      subst h4
      unfold fenceClose at hhd
      rw [(fence_not_marked _ _).1] at hhd
      exact absurd hhd (by simp)
  · cases hh : opts.no_header
    · rw [hh] at h5
      simp at h5
      subst h5
      rw [(lineEnd_not_marked _).1] at hhd
      exact absurd hhd (by simp)
    · rw [hh] at h5
      simp at h5

end WslClip

namespace WslClip

theorem filesChunks_footer_free {opts : TextOptions} {ts : List Char} {l : List FileEntry}
    (hln : ∀ e ∈ l, ∀ ln ∈ e.lines, '\n' ∉ ln) :
    ∀ c ∈ filesChunks opts ts l, isFooterChunk c = false := by
  intro c hc
  unfold filesChunks at hc
  rw [List.mem_flatMap] at hc
  obtain ⟨e, he, hce⟩ := hc
  rw [List.mem_filter] at he
  exact fileChunks_footer_free (hln e he.1) c hce

theorem filesChunks_header_shape {opts : TextOptions} {ts : List Char} {l : List FileEntry}
    (hln : ∀ e ∈ l, ∀ ln ∈ e.lines, '\n' ∉ ln) :
    ∀ c ∈ filesChunks opts ts l, isHeaderChunk c = true →
      ∃ e ∈ l, e.okFile = true ∧ c = crlfAdj opts.use_crlf (headerText e.path ts) := by
  intro c hc hhd
  unfold filesChunks at hc
  rw [List.mem_flatMap] at hc
  obtain ⟨e, he, hce⟩ := hc
  rw [List.mem_filter] at he
  exact ⟨e, he.1, he.2, fileChunks_header_shape (hln e he.1) c hce hhd⟩

theorem mem_sortEntries {e : FileEntry} {l : List FileEntry} :
    e ∈ sortEntries l ↔ e ∈ l := by
  unfold sortEntries
  exact List.mem_insertionSort entryLe

/-- Footer behaviour of file-list mode: the footer chunk appears
exactly when headers are on and the input list has more than one
entry, and any footer-shaped chunk is the footer emission itself. -/
theorem runFiles_footer_char {opts : TextOptions} {ts : List Char} {l : List FileEntry}
    (hln : ∀ e ∈ l, ∀ ln ∈ e.lines, '\n' ∉ ln) :
    ((∃ c ∈ runFiles opts ts l, isFooterChunk c = true) ↔
      (opts.no_header = false ∧ 1 < l.length)) ∧
    (∀ c ∈ runFiles opts ts l, isFooterChunk c = true →
      c = footerChunk opts (processedOf (sortEntries l))) := by
  have hlns : ∀ e ∈ sortEntries l, ∀ ln ∈ e.lines, '\n' ∉ ln := by
    intro e he
    exact hln e (mem_sortEntries.mp he)
  unfold runFiles
  cases hemp : l.isEmpty
  · simp only [hemp, Bool.false_eq_true, if_false]
    cases hcond : (!opts.no_header && decide (1 < l.length))
    · simp only [hcond, Bool.false_eq_true, if_false]
      constructor
      · constructor
        · rintro ⟨c, hc, hfoot⟩
          rw [filesChunks_footer_free hlns c hc] at hfoot
          exact absurd hfoot (by simp)
        · intro hcnd
          exfalso
          rw [Bool.and_eq_false_iff] at hcond
          rcases hcond with h | h
          · rw [hcnd.1] at h
            simp at h
          · rw [decide_eq_false_iff_not] at h
            exact h hcnd.2
      · intro c hc hfoot
        rw [filesChunks_footer_free hlns c hc] at hfoot
        exact absurd hfoot (by simp)
    · simp only [hcond, if_true]
      rw [Bool.and_eq_true] at hcond
      have hnh : opts.no_header = false := by
        have := hcond.1
        cases hh : opts.no_header
        · rfl
        · rw [hh] at this
          simp at this
      have hlen : 1 < l.length := of_decide_eq_true hcond.2
      constructor
      · constructor
        · intro _
          exact ⟨hnh, hlen⟩
        · intro _
          refine ⟨footerChunk opts (processedOf (sortEntries l)), by simp, ?_⟩
          unfold footerChunk
          exact isFooterChunk_emit _ _
      · intro c hc hfoot
        rcases List.mem_append.mp hc with h | h
        · rw [filesChunks_footer_free hlns c h] at hfoot
          exact absurd hfoot (by simp)
        · simpa using h
  · simp only [hemp, if_true]
    have : l = [] := List.isEmpty_iff.mp hemp
    subst this
    constructor
    · constructor
      · rintro ⟨c, hc, _⟩
        simp at hc
      · rintro ⟨_, hlen⟩
        simp at hlen
    · intro c hc
      simp at hc

/-- Header behaviour of file-list mode: every header-shaped chunk is a
header emission for one processed path, carrying the single captured
timestamp. -/
theorem runFiles_header_char {opts : TextOptions} {ts : List Char} {l : List FileEntry}
    (hln : ∀ e ∈ l, ∀ ln ∈ e.lines, '\n' ∉ ln) :
    ∀ c ∈ runFiles opts ts l, isHeaderChunk c = true →
      ∃ p ∈ processedOf (sortEntries l), c = crlfAdj opts.use_crlf (headerText p ts) := by
  have hlns : ∀ e ∈ sortEntries l, ∀ ln ∈ e.lines, '\n' ∉ ln := by
    intro e he
    exact hln e (mem_sortEntries.mp he)
  intro c hc hhd
  unfold runFiles at hc
  cases hemp : l.isEmpty
  · rw [hemp] at hc
    simp only [Bool.false_eq_true, if_false] at hc
    cases hcond : (!opts.no_header && decide (1 < l.length))
    · rw [hcond] at hc
      simp only [Bool.false_eq_true, if_false] at hc
      obtain ⟨e, hel, hok, hceq⟩ := filesChunks_header_shape hlns c hc hhd
      refine ⟨e.path, ?_, hceq⟩
      unfold processedOf
      rw [List.mem_map]
      exact ⟨e, List.mem_filter.mpr ⟨hel, hok⟩, rfl⟩
    · rw [hcond] at hc
      simp only [if_true] at hc
      rcases List.mem_append.mp hc with h | h
      · obtain ⟨e, hel, hok, hceq⟩ := filesChunks_header_shape hlns c h hhd
        refine ⟨e.path, ?_, hceq⟩
        unfold processedOf
        rw [List.mem_map]
        exact ⟨e, List.mem_filter.mpr ⟨hel, hok⟩, rfl⟩
      · simp at h
        subst h
        exfalso
        exact not_header_and_footer hhd (by unfold footerChunk; exact isFooterChunk_emit _ _)
  · rw [hemp] at hc
    simp at hc

end WslClip

namespace WslClip

/-! ## Round trip of the transform on clean lines -/

theorem ansiMatch_none_of_ne {c : Char} {rest : List Char} (hc : ¬ c = '\x1B') :
    ansiMatch (c :: rest) = none := by
  rw [ansiMatch.eq_def]
  split
  · next heq =>
    injection heq with h1 h2
    exact absurd h1 hc
  · rfl

theorem stripAnsi_no_esc : ∀ {l : List Char}, (∀ c ∈ l, ¬ c = '\x1B') → stripAnsi l = l := by
  intro l
  induction l with
  | nil =>
    intro _
    rfl
  | cons a rest ih =>
    intro h
    rw [stripAnsi_cons_nomatch (ansiMatch_none_of_ne (h a (by simp)))]
    rw [ih (fun c hc => h c (List.mem_cons_of_mem a hc))]

theorem transformLine_roundtrip {l : List Char}
    (h : ∀ c ∈ l, isControlChar c = false) : transformLine true l = l := by
  unfold transformLine
  simp only [if_true]
  have hesc : ∀ c ∈ l, ¬ c = '\x1B' := by
    intro c hc he
    have := h c hc
    rw [he] at this
    exact absurd this (by decide)
  rw [stripAnsi_no_esc hesc]
  apply List.filter_eq_self.mpr
  intro a ha
  rw [h a ha]
  simp

/-! ## Category of the dispatch decision -/

/-- The outcome constructor as a function of the three tallies and the
input length alone. -/
def dispatchCat (img fileC textC len : Nat) : Nat :=
  if (if img > 0 then 1 else 0) + (if fileC > 0 then 1 else 0) +
      (if textC > 0 then 1 else 0) > 1 then 0
  else if img > 0 then (if len = 1 then 1 else 2)
  else if fileC > 0 then 2
  else 3

theorem outcomeCategory_dispatch (l : List (List Char × ClipboardStrategy)) :
    outcomeCategory (dispatch l) =
      dispatchCat (countStrat .image l) (countStrat .file l) (countStrat .text l) l.length := by
  unfold dispatch dispatchCat
  by_cases h1 : (if countStrat .image l > 0 then 1 else 0) +
      (if countStrat .file l > 0 then 1 else 0) +
      (if countStrat .text l > 0 then 1 else 0) > 1
  · simp only [h1, if_true]
    rfl
  · by_cases h2 : countStrat .image l > 0
    · by_cases h3 : l.length = 1
      · simp only [h1, h2, h3, if_true, if_false]
        split_ifs <;> rfl
      · simp only [h1, h2, h3, if_true, if_false]
        split_ifs <;> rfl
    · by_cases h4 : countStrat .file l > 0
      · by_cases h5 : countStrat .text l > 0
        · exfalso
          simp [h2, h4, h5] at h1
        · simp [h1, h2, h4, h5, outcomeCategory]
      · by_cases h5 : countStrat .text l > 0
        · simp [h1, h2, h4, h5, outcomeCategory]
        · simp [h1, h2, h4, h5, outcomeCategory]

/-! ## Permutation invariance of the file-list run -/

theorem runFiles_perm {opts : TextOptions} {ts : List Char} {l1 l2 : List FileEntry}
    (hperm : l1.Perm l2)
    (hinj : ∀ a ∈ l1, ∀ b ∈ l1, a.path = b.path → a = b) :
    runFiles opts ts l1 = runFiles opts ts l2 := by
  have hsort := sortEntries_perm_eq hperm hinj
  have hlen : l1.length = l2.length := hperm.length_eq
  have hemp : l1.isEmpty = l2.isEmpty := by
    cases l1 with
    | nil =>
      have h2 : l2 = [] := (List.Perm.nil_eq hperm).symm
      rw [h2]
    | cons a t =>
      cases l2 with
      | nil => exact absurd hperm (by simp)
      | cons b u => rfl
  unfold runFiles
  rw [hsort, hlen, hemp]

end WslClip

namespace WslClip

/-! ## The claims -/

/-- C1: the dispatch policy over a non-empty classified input list
yields RejectedMixed carrying the three counts when more than one
category is present; otherwise SingleImage of the sole path when an
image verdict is present and the list is a singleton; otherwise
MultiAsFileObjects of all paths when an image verdict is present with
several inputs, or when a file verdict is present; otherwise it falls
through to the text pipeline. -/
theorem c1_dispatch_policy (l : List (List Char × ClipboardStrategy)) (hne : l ≠ []) :
    ((if countStrat .image l > 0 then 1 else 0) + (if countStrat .file l > 0 then 1 else 0)
        + (if countStrat .text l > 0 then 1 else 0) > 1 →
      dispatch l = .rejectedMixed (countStrat .image l) (countStrat .file l)
        (countStrat .text l)) ∧
    (∀ p s, l = [(p, s)] → countStrat .image l > 0 → dispatch l = .singleImage p) ∧
    (¬ ((if countStrat .image l > 0 then 1 else 0) + (if countStrat .file l > 0 then 1 else 0)
        + (if countStrat .text l > 0 then 1 else 0) > 1) →
      countStrat .image l > 0 → 1 < l.length →
      dispatch l = .multiAsFileObjects (l.map (fun x => x.1))) ∧
    (¬ ((if countStrat .image l > 0 then 1 else 0) + (if countStrat .file l > 0 then 1 else 0)
        + (if countStrat .text l > 0 then 1 else 0) > 1) →
      countStrat .image l = 0 → countStrat .file l > 0 →
      dispatch l = .multiAsFileObjects (l.map (fun x => x.1))) ∧
    (countStrat .image l = 0 → countStrat .file l = 0 → dispatch l = .fallThroughText) := by
  refine ⟨?_, ?_, ?_, ?_, ?_⟩
  · intro h
    simp only [dispatch]
    rw [if_pos h]
  · intro p s hl himg
    subst hl
    cases s with
    | image =>
      simp [dispatch, countStrat]
    | file => simp [countStrat] at himg
    | text => simp [countStrat] at himg
  · intro h himg hlen
    simp only [dispatch]
    rw [if_neg h, if_pos himg, if_neg (by omega : ¬ l.length = 1)]
  · intro h h0 hf
    simp only [dispatch]
    rw [if_neg h, if_neg (by omega : ¬ countStrat .image l > 0), if_pos hf]
  · intro h0 hf0
    by_cases ht : countStrat .text l > 0
    · simp [dispatch, h0, hf0, ht]
    · simp [dispatch, h0, hf0, ht]

/-- Witness for C1 at a singleton image input. -/
theorem c1_dispatch_policy_witness :
    dispatch [(("i.png").toList, .image)] = .singleImage (("i.png").toList) :=
  (c1_dispatch_policy [(("i.png").toList, .image)] (by decide)).2.1
    (("i.png").toList) .image rfl (by decide)

end WslClip

namespace WslClip

/-- C2 counterexample: the claim admits only m and K as final bytes of
a removed sequence, but the character class of the source regex also
contains the pipe, so the transform erases the sequence ESC, bracket,
pipe, while the claimed reading would keep the bracket and the pipe
and drop only the control character ESC. -/
theorem c2_spec_finals_cex :
    transformLine true (("a\x1B[|b").toList) ≠ specTransform specFinal (("a\x1B[|b").toList) := by
  decide

/-- C2 as amended: with strip_ansi enabled the per-line transform
removes exactly the CSI sequences of the regex grammar whose final
byte is m, pipe or K, then the remaining control characters other than
tab; and a line with no control characters at all (hence no ANSI
sequences) passes through unchanged. -/
theorem c2_line_transform (l : List Char) :
    transformLine true l = specTransform ansiFinal l ∧
      ((∀ c ∈ l, isControlChar c = false) → transformLine true l = l) :=
  ⟨transformLine_eq_specTransform l, fun h => transformLine_roundtrip h⟩

/-- Witness for C2 on a clean line. -/
theorem c2_line_transform_witness :
    transformLine true (("hello world").toList) = ("hello world").toList :=
  (c2_line_transform (("hello world").toList)).2 (by decide)

/-- C3 counterexample: with no path list and an interactive stdin the
run does fail with the usage error, but the sink text channel has
already been opened when it does, so the failure does not precede
every sink interaction. -/
theorem c3_sink_before_usage_cex :
    (runTextMode none ⟨false, true, false, false⟩ (("T").toList) ⟨true, []⟩).2
        = some PErr.usage ∧
      SinkEvent.openTextChannel ∈
        (runTextMode none ⟨false, true, false, false⟩ (("T").toList) ⟨true, []⟩).1 := by
  exact ⟨rfl, by decide⟩

/-- C3 as amended: with an absent path list and a tty on stdin the run
fails with UsageError, but only after the sink text byte stream has
been opened (and nothing is written to it); with a present but empty
path list no error is raised at all. -/
theorem c3_stdin_usage (opts : TextOptions) (ts : List Char) (stdinLines : List (List Char)) :
    runTextMode none opts ts ⟨true, stdinLines⟩
        = ([SinkEvent.openTextChannel], some PErr.usage) ∧
      ∀ st : StdinState, (runTextMode (some []) opts ts st).2 = none := by
  exact ⟨rfl, fun st => rfl⟩

end WslClip

namespace WslClip

/-- C4 counterexample: two input paths of which only one is a regular
file.  The footer is emitted, because the source tests total_files,
the raw input count, yet only one file was actually processed, so the
claimed condition (more than one file processed) is false. -/
theorem c4_processed_count_cex :
    ¬ ((∃ c ∈ runFiles ⟨false, false, false, false⟩ (("T").toList)
          [⟨("a.txt").toList, true, [("x").toList]⟩, ⟨("b.txt").toList, false, []⟩],
            isFooterChunk c = true) ↔
        ((⟨false, false, false, false⟩ : TextOptions).no_header = false ∧
          1 < (processedOf (sortEntries
            [⟨("a.txt").toList, true, [("x").toList]⟩,
             ⟨("b.txt").toList, false, []⟩])).length)) := by
  decide

/-- C4 as amended: the footer line is emitted exactly when headers are
not suppressed and the input path list, skipped entries included, has
more than one element; and every footer-shaped emission is the footer
chunk built from the space-joined list of the paths actually opened
and streamed. -/
theorem c4_footer (opts : TextOptions) (ts : List Char) (l : List FileEntry)
    (hln : ∀ e ∈ l, ∀ ln ∈ e.lines, '\n' ∉ ln) :
    ((∃ c ∈ runFiles opts ts l, isFooterChunk c = true) ↔
      (opts.no_header = false ∧ 1 < l.length)) ∧
    (∀ c ∈ runFiles opts ts l, isFooterChunk c = true →
      c = footerChunk opts (processedOf (sortEntries l))) :=
  runFiles_footer_char hln

/-- Witness for C4: two regular files, headers on, the footer is
present. -/
theorem c4_footer_witness :
    (∃ c ∈ runFiles ⟨false, false, false, false⟩ (("T").toList)
        [⟨("a.txt").toList, true, [("x").toList]⟩, ⟨("b.txt").toList, true, []⟩],
          isFooterChunk c = true) ↔
      ((⟨false, false, false, false⟩ : TextOptions).no_header = false ∧
        1 < ([⟨("a.txt").toList, true, [("x").toList]⟩,
              ⟨("b.txt").toList, true, []⟩] : List FileEntry).length) :=
  (c4_footer ⟨false, false, false, false⟩ (("T").toList)
    [⟨("a.txt").toList, true, [("x").toList]⟩, ⟨("b.txt").toList, true, []⟩]
    (by decide)).1

/-- C5: in file-list mode the pipeline sorts the paths and emits in
that order, so the produced stream is invariant under permutation of
the input list, provided equal paths denote the same filesystem
entry. -/
theorem c5_sorted_deterministic (opts : TextOptions) (ts : List Char) (stdin : StdinState)
    (l1 l2 : List FileEntry) (hperm : l1.Perm l2)
    (hinj : ∀ a ∈ l1, ∀ b ∈ l1, a.path = b.path → a = b) :
    process_input (some l1) opts ts stdin = process_input (some l2) opts ts stdin := by
  show Except.ok (runFiles opts ts l1) = Except.ok (runFiles opts ts l2)
  rw [runFiles_perm hperm hinj]

/-- Witness for C5: the two orders of a two-file list give the same
stream. -/
theorem c5_sorted_deterministic_witness :
    process_input (some [⟨("b.txt").toList, true, [("w").toList]⟩,
        ⟨("a.txt").toList, true, [("h").toList]⟩])
        ⟨false, false, false, false⟩ (("T").toList) ⟨false, []⟩ =
      process_input (some [⟨("a.txt").toList, true, [("h").toList]⟩,
        ⟨("b.txt").toList, true, [("w").toList]⟩])
        ⟨false, false, false, false⟩ (("T").toList) ⟨false, []⟩ :=
  c5_sorted_deterministic ⟨false, false, false, false⟩ (("T").toList) ⟨false, []⟩ _ _
    (List.Perm.swap _ _ []) (by decide)

/-- C6: a path whose lower-cased extension lies in ASSET_EXTS is
classified FileObject regardless of the file content, even when the
open fails, so no content read takes place; and a path without an
extension never matches the override set. -/
theorem c6_extension_override (lib : SigLib) (p : List Char) (fa : FileAccess) :
    (∀ e, extension? p = some e → ASSET_EXTS.contains (lowerAscii e) = true →
      inspect lib p fa = .ok .file) ∧
    (extension? p = none → is_asset_extension p = false) := by
  constructor
  · intro e he hmem
    have hA : is_asset_extension p = true := by
      unfold is_asset_extension
      rw [he]
      exact hmem
    unfold inspect
    rw [hA]
    simp
  · intro he
    unfold is_asset_extension
    rw [he]

/-- Witness for C6 at an upper-case drawing extension with a failing
open. -/
theorem c6_extension_override_witness :
    inspect (constLib false) (("model.DXF").toList) .openFail = .ok .file :=
  (c6_extension_override (constLib false) (("model.DXF").toList) .openFail).1
    (("DXF").toList) (by decide) (by decide)

/-- C7: for a readable file without an override extension whose
sampled prefix matches no image, archive, application or document
signature, the verdict is FileObject when the prefix holds a null byte
and Text otherwise; the empty file falls under the Text case with no
error. -/
theorem c7_content_heuristic (lib : SigLib) (p : List Char) (bytes : List Nat)
    (hext : is_asset_extension p = false)
    (himg : lib.is_image (bytes.take 262) = false)
    (harc : lib.is_archive (bytes.take 262) = false)
    (happ : lib.is_app (bytes.take 262) = false)
    (hdoc : lib.is_doc (bytes.take 262) = false) :
    inspect lib p (.opened (some bytes))
      = .ok (if (bytes.take 262).contains 0 then .file else .text) := by
  unfold inspect
  rw [hext]
  cases hz : (bytes.take 262).contains 0
  · have hz' : 0 ∉ bytes.take 262 := by
      simpa [List.contains, List.elem_iff] using hz
    simp [himg, harc, happ, hdoc, hz, hz']
  · have hz' : 0 ∈ bytes.take 262 := by
      simpa [List.contains, List.elem_iff] using hz
    simp [himg, harc, happ, hdoc, hz, hz']

/-- Witness for C7 at a prefix holding a null byte, and implicitly the
empty-file case through the same theorem shape. -/
theorem c7_content_heuristic_witness :
    inspect (constLib false) (("data.xyz").toList) (.opened (some [1, 0, 2]))
      = .ok (if (([1, 0, 2] : List Nat).take 262).contains 0 then .file else .text) :=
  c7_content_heuristic (constLib false) (("data.xyz").toList) [1, 0, 2]
    (by decide) (by decide) (by decide) (by decide) (by decide)

/-- C8: the dispatch outcome constructor is invariant under
permutation of the classified inputs; only payload paths can differ. -/
theorem c8_dispatch_perm (l1 l2 : List (List Char × ClipboardStrategy))
    (hperm : l1.Perm l2) :
    outcomeCategory (dispatch l1) = outcomeCategory (dispatch l2) := by
  rw [outcomeCategory_dispatch, outcomeCategory_dispatch]
  unfold countStrat
  rw [hperm.countP_eq, hperm.countP_eq, hperm.countP_eq, hperm.length_eq]

/-- Witness for C8 on a swapped two-element list. -/
theorem c8_dispatch_perm_witness :
    outcomeCategory (dispatch [(("a").toList, .text), (("b").toList, .file)]) =
      outcomeCategory (dispatch [(("b").toList, .file), (("a").toList, .text)]) :=
  c8_dispatch_perm _ _ (List.Perm.swap _ _ [])

/-- C9: every header chunk a file-list run emits carries the one
timestamp string captured before the loop, so all headers of one
invocation agree on it character for character. -/
theorem c9_single_timestamp (opts : TextOptions) (ts : List Char) (l : List FileEntry)
    (hln : ∀ e ∈ l, ∀ ln ∈ e.lines, '\n' ∉ ln) :
    ∀ c ∈ runFiles opts ts l, isHeaderChunk c = true →
      ∃ p ∈ processedOf (sortEntries l), c = crlfAdj opts.use_crlf (headerText p ts) :=
  runFiles_header_char hln

/-- Witness for C9 at a one-file run and its header chunk. -/
theorem c9_single_timestamp_witness :
    ∃ p ∈ processedOf (sortEntries [⟨("a.txt").toList, true, []⟩]),
      crlfAdj false (headerText (("a.txt").toList) (("T").toList))
        = crlfAdj false (headerText p (("T").toList)) :=
  c9_single_timestamp ⟨false, false, false, false⟩ (("T").toList)
    [⟨("a.txt").toList, true, []⟩] (by decide)
    (crlfAdj false (headerText (("a.txt").toList) (("T").toList)))
    (by decide) (by decide)

/-- C10: the classifier returns an error only when the open fails: any
successful open yields a verdict, because a failed read is collapsed
to a zero-byte read and classification proceeds as on an empty file. -/
theorem c10_error_only_open (lib : SigLib) (p : List Char) :
    (∀ res : Option (List Nat), ∃ v, inspect lib p (.opened res) = .ok v) ∧
    inspect lib p (.opened none) = inspect lib p (.opened (some [])) := by
  constructor
  · intro res
    unfold inspect
    cases hA : is_asset_extension p
    · simp only [hA, Bool.false_eq_true, if_false]
      split_ifs <;> exact ⟨_, rfl⟩
    · simp only [hA, if_true]
      exact ⟨.file, rfl⟩
  · rfl

end WslClip
